import Mathlib

/-!
A shallow embedding of the core of the cadence-tools test framework:
the test orchestrator (`test/test_runner.go`) and the emulator-backed
blockchain test backend (`src/unnamed/part_000`, the `EmulatorBackend`).
External collaborators (the Cadence interpreter, the parser, the
emulator ledger, `math/rand`) are modelled as explicit oracle
parameters or, where marked, from the spec; everything else is
translated directly from the Go source.
-/

namespace CadenceTools

/-- Go `error` values, modelled as their message strings. -/
abbrev Err := String

/-- Outcome of a single interpreter invocation (`inter.Invoke`): normal
return, an ordinary error value, or an internal fault (a Go panic). -/
inductive Outcome
  | ok
  | err (e : Err)
  | fault (e : Err)
deriving DecidableEq

/-- Result of a computation that may end in a Go panic escaping it. -/
inductive Res (α : Type)
  | ok (a : α)
  | panicked (e : Err)
deriving DecidableEq

/-- Model of a parsed, checked and interpreted test script (the output
of `parseCheckAndInterpret`): the names of the top-level function
declarations in declaration order (`program.Program.FunctionDeclarations`),
the names bound in the interpreter globals (`inter.Globals`), and an
oracle giving the outcome of each invocation as a function of the
invocation history, since the interpreter is stateful. -/
structure Interp where
  decls : List String
  globals : List String
  behave : List String → String → Outcome

/-- Pairing of a test-case name with its outcome
(test/test_runner.go lines 72-75). -/
structure Result where
  TestName : String
  Error : Option Err
deriving DecidableEq

/-- Raw `inter.Invoke`: produces a value/error pair or raises a panic;
either way the invocation is recorded in the trace. -/
def Invoke (it : Interp) (tr : List String) (n : String) : Res (Option Err) × List String :=
  match it.behave tr n with
  | .ok => (.ok none, tr ++ [n])
  | .err e => (.ok (some e), tr ++ [n])
  | .fault e => (.panicked e, tr ++ [n])

/-- Function `invokeTestFunction` (test/test_runner.go lines 363-373):
invokes a function and, via its own deferred `recoverPanics`, converts
an internal fault into an ordinary error value, individually per
invocation. -/
def invokeTestFunction (it : Interp) (tr : List String) (n : String) : Option Err × List String :=
  match Invoke it tr n with
  | (.ok r, tr') => (r, tr')
  | (.panicked e, tr') => (some e, tr')

/-- Common shape of the four lifecycle-hook runners
(test/test_runner.go lines 315-361): if the hook name is bound in the
interpreter globals, invoke it through `invokeTestFunction`; otherwise
do nothing (absence is not an error). -/
def runHook (it : Interp) (n : String) (tr : List String) : Option Err × List String :=
  if it.globals.contains n then invokeTestFunction it tr n else (none, tr)

/-- Function `runTestSetup` (test/test_runner.go lines 315-321). -/
def runTestSetup (it : Interp) (tr : List String) : Option Err × List String :=
  runHook it "setup" tr

/-- Function `runTestTearDown` (test/test_runner.go lines 327-333). -/
def runTestTearDown (it : Interp) (tr : List String) : Option Err × List String :=
  runHook it "tearDown" tr

/-- Function `runBeforeEach` (test/test_runner.go lines 339-345). -/
def runBeforeEach (it : Interp) (tr : List String) : Option Err × List String :=
  runHook it "beforeEach" tr

/-- Function `runAfterEach` (test/test_runner.go lines 351-357). -/
def runAfterEach (it : Interp) (tr : List String) : Option Err × List String :=
  runHook it "afterEach" tr

/-- Method `RunTest` (test/test_runner.go lines 208-247), after a
successful `parseCheckAndInterpret`.  The test case itself is invoked
with a raw `inter.Invoke`: a fault there is recovered only by the
deferred `recoverPanics` at the `RunTest` boundary, where it becomes
the call's error with a nil `Result`, skipping `afterEach` and
`tearDown`. -/
def RunTest (it : Interp) (funcName : String) : Option Result × Option Err × List String :=
  match runTestSetup it [] with
  | (some e, tr) => (none, some e, tr)
  | (none, tr) =>
    match runBeforeEach it tr with
    | (some e, tr') => (none, some e, tr')
    | (none, tr') =>
      match Invoke it tr' funcName with
      | (.panicked e, tr'') => (none, some e, tr'')
      | (.ok testResult, tr'') =>
        match runAfterEach it tr'' with
        | (some e, tr3) => (none, some e, tr3)
        | (none, tr3) =>
          match runTestTearDown it tr3 with
          | (terr, tr4) => (some { TestName := funcName, Error := testResult }, terr, tr4)

/-- Swap of two list positions, the parallel assignment
`testCases[i], testCases[j] = testCases[j], testCases[i]` performed by
the shuffle callback (test/test_runner.go line 282). -/
def listSwap (l : List α) (i j : Nat) (d : α) : List α :=
  (l.set i (l.getD j d)).set j (l.getD i d)

/-- Modelled from the spec: `math/rand` is "a deterministic seed-based
PRNG", "the seed, not wall-clock time, determines the permutation".
One step of the generator stream. -/
def rngStep (s : Nat) : Nat := (6364136223846793005 * s + 1442695040888963407) % 2 ^ 64

/-- Modelled from the spec: `rand.NewSource(seed)` - the initial
generator state, determined by the seed alone. -/
def newSource (seed : Int) : Nat := (seed.emod (2 ^ 63)).toNat

/-- Modelled from the spec: drawing a value in `[0, n)` from the
current generator state (`rng.Int63n`). -/
def int63n (s n : Nat) : Nat := s % n

/-- The Fisher-Yates loop of `rng.Shuffle` (test/test_runner.go lines
281-283): for `i` from `n-1` down to `1`, draw `j` in `[0, i]` and swap
positions `i` and `j`.  The first argument is the current index `i`. -/
def shuffleIter : Nat → Nat → List α → α → List α
  | 0, _, l, _ => l
  | i + 1, st, l, d =>
    shuffleIter i (rngStep st) (listSwap l (i + 1) (int63n (rngStep st) (i + 2)) d) d

/-- The seeded shuffle of the discovered test-case list
(test/test_runner.go lines 279-284). -/
def shuffleGo (seed : Int) (l : List String) : List String :=
  shuffleIter (l.length - 1) (newSource seed) l ""

/-- The case-ordering logic of `RunTests` (test/test_runner.go lines
279-284): a configured random seed greater than zero shuffles the
discovered case list with a PRNG seeded by that seed alone; otherwise
the order is declaration order. -/
def executionOrder (seed : Int) (cases : List String) : List String :=
  if seed > 0 then shuffleGo seed cases else cases

/-- Go `strings.HasPrefix`. -/
def hasPrefixStr (p s : String) : Bool := p.toList.isPrefixOf s.toList

/-- Test-case discovery of `RunTests` (test/test_runner.go lines
270-278): the declared functions whose name carries the reserved
`test` name start. -/
def testCasesOf (it : Interp) : List String :=
  it.decls.filter (fun n => hasPrefixStr "test" n)

/-- The per-case loop of `RunTests` (test/test_runner.go lines 286-313)
together with the final `tearDown`: `beforeEach`, then the case through
`invokeTestFunction` (fault-contained), then `afterEach`, then append
the case `Result`; a failing `beforeEach` or `afterEach` returns
`(nil, err)` immediately, without running `tearDown`. -/
def runCases (it : Interp) : List String → List Result → List String → Option (List Result) × Option Err × List String
  | [], results, tr =>
    match runTestTearDown it tr with
    | (terr, tr') => (some results, terr, tr')
  | c :: rest, results, tr =>
    match runBeforeEach it tr with
    | (some e, tr') => (none, some e, tr')
    | (none, tr') =>
      match invokeTestFunction it tr' c with
      | (testErr, tr'') =>
        match runAfterEach it tr'' with
        | (some e, tr3) => (none, some e, tr3)
        | (none, tr3) => runCases it rest (results ++ [{ TestName := c, Error := testErr }]) tr3

/-- Method `RunTests` (test/test_runner.go lines 250-313), after a
successful `parseCheckAndInterpret`: run `setup`, discover and
optionally shuffle the case list, then run the per-case loop. -/
def RunTests (seed : Int) (it : Interp) : Option (List Result) × Option Err × List String :=
  match runTestSetup it [] with
  | (some e, tr) => (none, some e, tr)
  | (none, tr) => runCases it (executionOrder seed (testCasesOf it)) [] tr

/-! The blockchain test backend (`src/unnamed/part_000`). -/

/-- The uint64 modulus; `blockOffset` and sequence numbers are Go
uint64 values. -/
def U64 : Nat := 2 ^ 64

/-- Property bag passed to the backend (`stdlib.Configuration`): the
address-mapping table from import path strings to target addresses
(rendered in hex without the `0x` marker, as `fmt.Sprintf("0x%s", a)`
supplies it). -/
structure Configuration where
  Addresses : String → Option String

/-- One parsed import declaration as consumed by `replaceImports`
(part_000 lines 418-443): the offset of the last byte of the
declaration (`EndPos.Offset`), the offset where its location token
starts (`LocationPos.Offset`), and the plain string path when the
location is a `common.StringLocation`. -/
structure ImportDecl where
  endOffset : Nat
  locationPos : Nat
  stringLocation : Option String
deriving DecidableEq

/-- Go slicing `code[a:b]`. -/
def sliceList (l : List Char) (a b : Nat) : List Char := (l.take b).drop a

/-- The rewriting loop of `replaceImports` (part_000 lines 415-447):
walk the import declarations, copying the bytes from the previous
declaration end verbatim; for an import whose location is a string
path present in the address table, copy only up to the location start
and emit `0x` plus the mapped address instead of the location; finally
copy the bytes after the last declaration. -/
def rewriteLoop (addrs : String → Option String) (code : List Char) : List ImportDecl → Nat → List Char
  | [], importDeclEnd => sliceList code importDeclEnd code.length
  | d :: rest, prevImportDeclEnd =>
    let importDeclEnd := d.endOffset + 1
    match d.stringLocation with
    | none => sliceList code prevImportDeclEnd importDeclEnd ++ rewriteLoop addrs code rest importDeclEnd
    | some loc =>
      match addrs loc with
      | none => sliceList code prevImportDeclEnd importDeclEnd ++ rewriteLoop addrs code rest importDeclEnd
      | some address =>
        sliceList code prevImportDeclEnd d.locationPos
          ++ ("0x" ++ address).toList
          ++ rewriteLoop addrs code rest importDeclEnd

/-- The pure core of `replaceImports`, applied to an already parsed
import-declaration list. -/
def replaceImportsCore (addrs : String → Option String) (code : List Char) (imports : List ImportDecl) : List Char :=
  rewriteLoop addrs code imports 0

/-- A parser oracle: the import declarations of a source text, or a
parse error (`parser.ParseProgram` is an external collaborator). -/
abbrev ParseOracle := String → Except Err (List ImportDecl)

/-- Method `replaceImports` (part_000 lines 405-448): with no
configuration the code is returned untouched and is never parsed;
otherwise the code is parsed - a parse failure PANICS (line 412) - and
the rewriting loop runs over the import declarations. -/
def replaceImports (cfg : Option Configuration) (parse : ParseOracle) (code : String) : Res String :=
  match cfg with
  | none => .ok code
  | some c =>
    match parse code with
    | .error e => .panicked e
    | .ok imports => .ok ⟨replaceImportsCore c.Addresses code.toList imports⟩

/-- Modelled from the spec: the spec's description of import rewriting
("replaces that import's target with the corresponding hex address
literal, leaving byte ranges outside import declarations untouched;
imports not present in the table pass through unmodified"), for
comparison with `replaceImportsCore`. -/
def specRewrite (addrs : String → Option String) (code : List Char) : List ImportDecl → Nat → List Char
  | [], p => sliceList code p code.length
  | d :: rest, p =>
    sliceList code p d.locationPos
      ++ (match d.stringLocation with
          | some loc =>
            match addrs loc with
            | some address => ("0x" ++ address).toList
            | none => sliceList code d.locationPos (d.endOffset + 1)
          | none => sliceList code d.locationPos (d.endOffset + 1))
      ++ specRewrite addrs code rest (d.endOffset + 1)

/-- Well-formedness of a parsed import-declaration list with respect to
the source bytes, as the parser guarantees it: declarations come in
source order, the location token of each lies inside the declaration,
and all offsets are in bounds. -/
def importsWF (code : List Char) : List ImportDecl → Nat → Bool
  | [], p => decide (p ≤ code.length)
  | d :: rest, p =>
    decide (p ≤ d.locationPos) && decide (d.locationPos ≤ d.endOffset + 1)
      && importsWF code rest (d.endOffset + 1)

/-- The mutable state of `EmulatorBackend` that the specified claims
depend on (part_000 lines 46-65): the pending-block sequence-number
offset and the configured address mapping.  The ledger, key registry
and resolvers are external collaborators passed as oracles. -/
structure EmulatorBackend where
  blockOffset : Nat
  configuration : Option Configuration

/-- The fields of the `sdk.Transaction` built by `newTransaction` that
the claims observe. -/
structure Tx where
  script : String
  proposalSequenceNumber : Nat
  authorizers : List String
  args : List String

/-- Method `newTransaction` (part_000 lines 214-229): the proposal
key's sequence number is the service key's current sequence number
plus the current block offset (uint64 arithmetic). -/
def newTransaction (e : EmulatorBackend) (serviceSeqNum : Nat) (code : String) (authorizers : List String) : Tx :=
  { script := code
    proposalSequenceNumber := (serviceSeqNum + e.blockOffset) % U64
    authorizers := authorizers
    args := [] }

/-- Oracle outcome for exporting and encoding one script or transaction
argument (`runtime.ExportValue`, `json.Encode` and `tx.AddArgument` are
external collaborators): failure at either stage, or the exported
type identifier together with the encoded bytes. -/
inductive ArgEnc
  | exportFail (e : Err)
  | encodeFail (e : Err)
  | okArg (typeId enc : String)
deriving DecidableEq

/-- The argument loop common to `RunScript`, `AddTransaction` and
`DeployContract`: encode each argument, stopping at the first
failure. -/
def encodeArgs : List ArgEnc → Except Err (List String)
  | [] => .ok []
  | .exportFail e :: _ => .error e
  | .encodeFail e :: _ => .error e
  | .okArg _ enc :: rest => (encodeArgs rest).map (enc :: ·)

/-- Observable output of `AddTransaction`: the returned error, the
backend state after the call, and the transaction that was built (for
inspection by the sequencing claims). -/
structure AddTxOut where
  error : Option Err
  backend : EmulatorBackend
  builtTx : Option Tx

/-- Method `AddTransaction` (part_000 lines 174-212): rewrite imports
(may panic), build the transaction with `newTransaction`, encode and
add the arguments, sign, submit to the pending block, and increment
the block offset only after a successful submission. -/
def AddTransaction (e : EmulatorBackend) (parse : ParseOracle) (serviceSeqNum : Nat)
    (signErr : Option Err) (ledgerAdd : Tx → Option Err)
    (code : String) (authorizers : List String) (args : List ArgEnc) : Res AddTxOut :=
  match replaceImports e.configuration parse code with
  | .panicked p => .panicked p
  | .ok code' =>
    let tx := newTransaction e serviceSeqNum code' authorizers
    match encodeArgs args with
    | .error er => .ok { error := some er, backend := e, builtTx := some tx }
    | .ok encoded =>
      let tx := { tx with args := encoded }
      match signErr with
      | some er => .ok { error := some er, backend := e, builtTx := some tx }
      | none =>
        match ledgerAdd tx with
        | some er => .ok { error := some er, backend := e, builtTx := some tx }
        | none =>
          .ok { error := none
                backend := { e with blockOffset := (e.blockOffset + 1) % U64 }
                builtTx := some tx }

/-- Response of the ledger's execute-next-pending-transaction call
(external collaborator): the distinguished exhausted-queue error, any
other ledger error, or an execution result that itself may carry an
error. -/
inductive ExecOut
  | errExhausted
  | errOther (e : Err)
  | execResult (er : Option Err)
deriving DecidableEq

/-- The result type returned by `ExecuteNextTransaction`. -/
structure TransactionResult where
  Error : Option Err
deriving DecidableEq

/-- Method `ExecuteNextTransaction` (part_000 lines 266-289): a
`PendingBlockTransactionsExhaustedError` from the ledger yields `nil`
(not an error); any other ledger error, or an error inside the
execution result, yields a result carrying that error; success yields
a result with a nil error. -/
def ExecuteNextTransaction (res : ExecOut) : Option TransactionResult :=
  match res with
  | .errExhausted => none
  | .errOther e => some { Error := some e }
  | .execResult (some e) => some { Error := some e }
  | .execResult none => some { Error := none }

/-- Method `CommitBlock` (part_000 lines 291-297): the block offset is
reset to zero FIRST, then the ledger commit runs; the reset stands
even when the commit fails. -/
def CommitBlock (e : EmulatorBackend) (commitErr : Option Err) : Option Err × EmulatorBackend :=
  let e' := { e with blockOffset := 0 }
  (commitErr, e')

/-- Hex digit table for `hex.EncodeToString`. -/
def hexDigit (n : Nat) : Char := "0123456789abcdef".toList.getD n '0'

/-- Go `hex.EncodeToString` over the UTF-8 bytes of a string. -/
def hexEncode (s : String) : String :=
  ⟨(s.toUTF8.data.toList.map UInt8.toNat).foldr
    (fun b acc => hexDigit (b / 16) :: hexDigit (b % 16) :: acc) []⟩

/-- The `txArgsBuilder` of `DeployContract` (part_000 lines 322-336):
`arg0: T0, arg1: T1, ...` over the exported argument type
identifiers. -/
def txArgsString : Nat → List String → String
  | _, [] => ""
  | i, t :: rest =>
    (if i > 0 then ", " else "") ++ "arg" ++ toString i ++ ": " ++ t ++ txArgsString (i + 1) rest

/-- The `addArgsBuilder` of `DeployContract`: `, arg0, arg1, ...`. -/
def addArgsString : Nat → List String → String
  | _, [] => ""
  | i, _ :: rest => ", arg" ++ toString i ++ addArgsString (i + 1) rest

/-- The exported type identifiers of successfully exported
arguments. -/
def argTypeIds : List ArgEnc → List String
  | [] => []
  | .okArg t _ :: rest => t :: argTypeIds rest
  | _ :: rest => argTypeIds rest

/-- The deployment transaction synthesized by `DeployContract`
(part_000 lines 307-344): the template with the argument list, the
contract name, the hex-encoded contract source and the constructor
arguments inlined. -/
def deployScriptText (name code : String) (typeIds : List String) : String :=
  "\n\t    transaction(" ++ txArgsString 0 typeIds
    ++ ") \x7b\n\t\t    prepare(signer: AuthAccount) \x7b\n\t\t\t    signer.contracts.add(name: \""
    ++ name ++ "\", code: \"" ++ hexEncode code ++ "\".decodeHex()"
    ++ addArgsString 0 typeIds ++ ")\n\t\t    \x7d\n\t    \x7d"

/-- Observable output of `DeployContract`. -/
structure DeployOut where
  error : Option Err
  backend : EmulatorBackend
  builtTx : Option Tx

/-- Method `DeployContract` (part_000 lines 299-374): rewrite imports
(may panic), export the constructor arguments, synthesize the
deployment transaction through `newTransaction` with the target
account as single authorizer, sign, submit (incrementing the block
offset on success), execute it immediately, then commit the block.
Dereferencing a nil `ExecuteNextTransaction` result is a Go nil
pointer panic. -/
def DeployContract (e : EmulatorBackend) (parse : ParseOracle) (serviceSeqNum : Nat)
    (signErr : Option Err) (ledgerAdd : Tx → Option Err) (execRes : ExecOut) (commitErr : Option Err)
    (name code : String) (accountAddress : String) (args : List ArgEnc) : Res DeployOut :=
  match replaceImports e.configuration parse code with
  | .panicked p => .panicked p
  | .ok code' =>
    match encodeArgs args with
    | .error er => .ok { error := some er, backend := e, builtTx := none }
    | .ok encoded =>
      let script := deployScriptText name code' (argTypeIds args)
      let tx0 := newTransaction e serviceSeqNum script [accountAddress]
      let tx := { tx0 with args := encoded }
      match signErr with
      | some er => .ok { error := some er, backend := e, builtTx := some tx }
      | none =>
        match ledgerAdd tx with
        | some er => .ok { error := some er, backend := e, builtTx := some tx }
        | none =>
          let e' := { e with blockOffset := (e.blockOffset + 1) % U64 }
          match ExecuteNextTransaction execRes with
          | none => .panicked "runtime error: invalid memory address or nil pointer dereference"
          | some r =>
            match r.Error with
            | some er => .ok { error := some er, backend := e', builtTx := some tx }
            | none =>
              match CommitBlock e' commitErr with
              | (cerr, e'') => .ok { error := cerr, backend := e'', builtTx := some tx }

/-- The result type returned by `RunScript`. -/
structure ScriptResult where
  Value : Option String
  Error : Option Err
deriving DecidableEq

/-- Response of the ledger's execute-script call and of importing the
result back into the interpreter (external collaborators). -/
inductive ScriptExec
  | execFail (e : Err)
  | resultErr (e : Err)
  | importFail (e : Err)
  | okValue (v : String)
deriving DecidableEq

/-- Method `RunScript` (part_000 lines 89-139): arguments are exported
and encoded first (any failure is carried in the result's error field,
never thrown), then imports are rewritten (which may PANIC), then the
script runs against the ledger and the result is decoded. -/
def RunScript (e : EmulatorBackend) (parse : ParseOracle) (exec : String → ScriptExec)
    (code : String) (args : List ArgEnc) : Res ScriptResult :=
  match encodeArgs args with
  | .error er => .ok { Value := none, Error := some er }
  | .ok _ =>
    match replaceImports e.configuration parse code with
    | .panicked p => .panicked p
    | .ok code' =>
      match exec code' with
      | .execFail er => .ok { Value := none, Error := some er }
      | .resultErr er => .ok { Value := none, Error := some er }
      | .importFail er => .ok { Value := none, Error := some er }
      | .okValue v => .ok { Value := some v, Error := none }

/-! Helper lemmas about invocation traces. -/

theorem invokeTestFunction_trace (it : Interp) (tr : List String) (n : String) :
    (invokeTestFunction it tr n).2 = tr ++ [n] := by
  unfold invokeTestFunction Invoke
  cases it.behave tr n <;> simp

theorem invokeTestFunction_fault (it : Interp) (tr : List String) (n : String) (e : Err)
    (h : it.behave tr n = .fault e) :
    invokeTestFunction it tr n = (some e, tr ++ [n]) := by
  unfold invokeTestFunction Invoke
  rw [h]

theorem runHook_trace (it : Interp) (n : String) (tr : List String) :
    (runHook it n tr).2 = tr ∨ (runHook it n tr).2 = tr ++ [n] := by
  unfold runHook
  split
  · right
    exact invokeTestFunction_trace it tr n
  · left
    rfl

theorem runHook_absent (it : Interp) (n : String) (tr : List String)
    (h : it.globals.contains n = false) :
    runHook it n tr = (none, tr) := by
  unfold runHook
  rw [h]
  rfl

theorem count_snoc (tr : List String) (m n : String) :
    List.count n (tr ++ [m]) = List.count n tr + (if m = n then 1 else 0) := by
  simp [List.count_append, List.count_cons]

theorem runHook_count (it : Interp) (m : String) (tr : List String) (n : String) (h : m ≠ n) :
    List.count n (runHook it m tr).2 = List.count n tr := by
  rcases runHook_trace it m tr with h2 | h2
  · rw [h2]
  · rw [h2, count_snoc, if_neg h]
    omega

theorem runHook_count_self (it : Interp) (m : String) (tr : List String)
    (h : it.globals.contains m = true) :
    List.count m (runHook it m tr).2 = List.count m tr + 1 := by
  unfold runHook
  rw [if_pos h, invokeTestFunction_trace, count_snoc, if_pos rfl]

theorem invokeTestFunction_count (it : Interp) (c : String) (tr : List String) (n : String)
    (h : c ≠ n) :
    List.count n (invokeTestFunction it tr c).2 = List.count n tr := by
  rw [invokeTestFunction_trace, count_snoc, if_neg h]
  omega

theorem runHook_mem (it : Interp) (m : String) (tr : List String) (x : String) (hx : x ∈ tr) :
    x ∈ (runHook it m tr).2 := by
  rcases runHook_trace it m tr with h | h <;> rw [h] <;> simp [hx]

/-! Helper lemmas for the permutation produced by the seeded shuffle. -/

theorem cons_middle_swap (x y : α) (C D : List α) :
    List.Perm (y :: (C ++ x :: D)) (x :: (C ++ y :: D)) :=
  (List.perm_middle.cons y).trans
    ((List.Perm.swap x y (C ++ D)).trans (List.perm_middle.symm.cons x))

theorem exists_split_at (l : List α) (q : Nat) (hq : q < l.length) :
    ∃ P y D, l = P ++ y :: D ∧ P.length = q := by
  refine ⟨l.take q, l[q], l.drop (q + 1), ?_, ?_⟩
  · rw [List.getElem_cons_drop l q hq, List.take_append_drop]
  · rw [List.length_take]
    omega

theorem exists_split_two (l : List α) (p q : Nat) (hpq : p < q) (hq : q < l.length) :
    ∃ A x C y D, l = A ++ x :: (C ++ y :: D) ∧ A.length = p ∧ (A ++ x :: C).length = q := by
  obtain ⟨P, y, D, hl, hP⟩ := exists_split_at l q hq
  have hp' : p < P.length := by omega
  obtain ⟨A, x, C, hPd, hA⟩ := exists_split_at P p hp'
  refine ⟨A, x, C, y, D, ?_, hA, ?_⟩
  · rw [hl, hPd]
    simp
  · rw [← hPd, hP]

theorem set_at_len (A : List α) (x : α) (B : List α) (y : α) :
    (A ++ x :: B).set A.length y = A ++ y :: B := by
  induction A with
  | nil => rfl
  | cons a A ih => simp [ih]

theorem getD_at_len (A : List α) (x : α) (B : List α) (d : α) :
    (A ++ x :: B).getD A.length d = x := by
  induction A with
  | nil => rfl
  | cons a A ih => simpa using ih

theorem listSwap_split_lt (A : List α) (x : α) (C : List α) (y : α) (D : List α) (d : α) :
    listSwap (A ++ x :: (C ++ y :: D)) A.length (A ++ x :: C).length d
      = A ++ y :: (C ++ x :: D) := by
  unfold listSwap
  have h2 : (A ++ x :: (C ++ y :: D)).getD (A ++ x :: C).length d = y := by
    have hr : A ++ x :: (C ++ y :: D) = (A ++ x :: C) ++ y :: D := by simp
    rw [hr, getD_at_len]
  rw [getD_at_len, h2, set_at_len]
  have h3 : A ++ y :: (C ++ y :: D) = (A ++ y :: C) ++ y :: D := by simp
  have h4 : (A ++ x :: C).length = (A ++ y :: C).length := by simp
  rw [h3, h4, set_at_len]
  simp

theorem listSwap_split_gt (A : List α) (x : α) (C : List α) (y : α) (D : List α) (d : α) :
    listSwap (A ++ x :: (C ++ y :: D)) (A ++ x :: C).length A.length d
      = A ++ y :: (C ++ x :: D) := by
  unfold listSwap
  have h2 : (A ++ x :: (C ++ y :: D)).getD (A ++ x :: C).length d = y := by
    have hr : A ++ x :: (C ++ y :: D) = (A ++ x :: C) ++ y :: D := by simp
    rw [hr, getD_at_len]
  rw [getD_at_len, h2]
  have h3 : A ++ x :: (C ++ y :: D) = (A ++ x :: C) ++ y :: D := by simp
  rw [h3, set_at_len]
  have h4 : (A ++ x :: C) ++ x :: D = A ++ x :: (C ++ x :: D) := by simp
  rw [h4, set_at_len]

theorem listSwap_perm (l : List α) (d : α) (i j : Nat) (hi : i < l.length) (hj : j < l.length) :
    (listSwap l i j d).Perm l := by
  rcases Nat.lt_trichotomy i j with hij | hij | hij
  · obtain ⟨A, x, C, y, D, hl, hA, hAC⟩ := exists_split_two l i j hij hj
    subst hl
    rw [← hA, ← hAC, listSwap_split_lt]
    exact List.Perm.append_left A (cons_middle_swap x y C D)
  · subst hij
    obtain ⟨P, z, D, hl, hP⟩ := exists_split_at l i hi
    subst hl
    rw [← hP]
    unfold listSwap
    rw [getD_at_len, set_at_len, set_at_len]
  · obtain ⟨A, x, C, y, D, hl, hA, hAC⟩ := exists_split_two l j i hij hi
    subst hl
    rw [← hA, ← hAC, listSwap_split_gt]
    exact List.Perm.append_left A (cons_middle_swap x y C D)

theorem listSwap_length (l : List α) (i j : Nat) (d : α) :
    (listSwap l i j d).length = l.length := by
  unfold listSwap
  rw [List.length_set, List.length_set]

theorem shuffleIter_perm (d : α) :
    ∀ (fuel st : Nat) (l : List α), fuel < l.length → (shuffleIter fuel st l d).Perm l := by
  intro fuel
  induction fuel with
  | zero =>
    intro st l _
    exact List.Perm.refl l
  | succ i ih =>
    intro st l hfl
    rw [shuffleIter]
    have hj : int63n (rngStep st) (i + 2) < l.length := by
      have h2 : int63n (rngStep st) (i + 2) < i + 2 := Nat.mod_lt _ (by omega)
      omega
    refine (ih (rngStep st) _ ?_).trans (listSwap_perm l d (i + 1) _ hfl hj)
    rw [listSwap_length]
    omega

theorem shuffleGo_perm (seed : Int) (l : List String) : (shuffleGo seed l).Perm l := by
  cases l with
  | nil => exact List.Perm.refl []
  | cons a t =>
    unfold shuffleGo
    apply shuffleIter_perm
    simp

theorem executionOrder_perm (seed : Int) (l : List String) : (executionOrder seed l).Perm l := by
  unfold executionOrder
  split
  · exact shuffleGo_perm seed l
  · exact List.Perm.refl l

/-! Helper lemmas about the per-case loop of RunTests. -/

theorem runCases_count_tearDown (it : Interp)
    (hB : ∀ tr, (runBeforeEach it tr).1 = none)
    (hA : ∀ tr, (runAfterEach it tr).1 = none) :
    ∀ (cases : List String) (acc : List Result) (tr : List String),
      "tearDown" ∉ cases →
      List.count "tearDown" (runCases it cases acc tr).2.2 =
        List.count "tearDown" tr + (if it.globals.contains "tearDown" then 1 else 0) := by
  intro cases
  induction cases with
  | nil =>
    intro acc tr _
    rcases htd : runTestTearDown it tr with ⟨terr, tr'⟩
    simp only [runCases, htd]
    have h4 : (runHook it "tearDown" tr).2 = tr' := congrArg Prod.snd htd
    by_cases hc : it.globals.contains "tearDown" = true
    · rw [if_pos hc, ← h4, runHook_count_self it "tearDown" tr hc]
    · have hc' : it.globals.contains "tearDown" = false := by
        simpa using hc
      rw [if_neg hc, ← h4, runHook_absent it "tearDown" tr hc']
      simp
  | cons c rest ih =>
    intro acc tr hnotin
    have hc : c ≠ "tearDown" := fun he => hnotin (by rw [← he]; exact List.mem_cons_self c rest)
    have hrest : "tearDown" ∉ rest := fun hm => hnotin (List.mem_cons_of_mem _ hm)
    rcases hbe : runBeforeEach it tr with ⟨o1, tr1⟩
    have ho1 : o1 = none := by
      have hh := hB tr
      rw [hbe] at hh
      exact hh
    subst ho1
    rcases hiv : invokeTestFunction it tr1 c with ⟨testErr, tr2⟩
    rcases haf : runAfterEach it tr2 with ⟨o2, tr3⟩
    have ho2 : o2 = none := by
      have hh := hA tr2
      rw [haf] at hh
      exact hh
    subst ho2
    simp only [runCases, hbe, hiv, haf]
    rw [ih (acc ++ [Result.mk c testErr]) tr3 hrest]
    have h3 : (runHook it "afterEach" tr2).2 = tr3 := congrArg Prod.snd haf
    have e3 : List.count "tearDown" tr3 = List.count "tearDown" tr2 :=
      h3 ▸ runHook_count it "afterEach" tr2 "tearDown" (by decide)
    have h2 : (invokeTestFunction it tr1 c).2 = tr2 := congrArg Prod.snd hiv
    have e2 : List.count "tearDown" tr2 = List.count "tearDown" tr1 :=
      h2 ▸ invokeTestFunction_count it c tr1 "tearDown" hc
    have h1 : (runHook it "beforeEach" tr).2 = tr1 := congrArg Prod.snd hbe
    have e1 : List.count "tearDown" tr1 = List.count "tearDown" tr :=
      h1 ▸ runHook_count it "beforeEach" tr "tearDown" (by decide)
    rw [e3, e2, e1]

theorem runCases_ok (it : Interp)
    (hB : ∀ tr, (runBeforeEach it tr).1 = none)
    (hA : ∀ tr, (runAfterEach it tr).1 = none) :
    ∀ (cases : List String) (acc : List Result) (tr : List String),
      ∃ res terr tr',
        runCases it cases acc tr = (some res, terr, tr') ∧
        res.map (fun r => r.TestName) = acc.map (fun r => r.TestName) ++ cases ∧
        (∀ x ∈ tr, x ∈ tr') ∧
        (∀ c ∈ cases, c ∈ tr') ∧
        (∀ r ∈ res, r ∈ acc ∨
          ∃ tr0, invokeTestFunction it tr0 r.TestName = (r.Error, tr0 ++ [r.TestName])) := by
  intro cases
  induction cases with
  | nil =>
    intro acc tr
    rcases htd : runTestTearDown it tr with ⟨terr, tr'⟩
    refine ⟨acc, terr, tr', by simp only [runCases, htd], by simp, ?_, by simp, ?_⟩
    · intro x hx
      have h4 : (runHook it "tearDown" tr).2 = tr' := congrArg Prod.snd htd
      exact h4 ▸ runHook_mem it "tearDown" tr x hx
    · intro r hr
      exact Or.inl hr
  | cons c rest ih =>
    intro acc tr
    rcases hbe : runBeforeEach it tr with ⟨o1, tr1⟩
    have ho1 : o1 = none := by
      have hh := hB tr
      rw [hbe] at hh
      exact hh
    subst ho1
    rcases hiv : invokeTestFunction it tr1 c with ⟨testErr, tr2⟩
    rcases haf : runAfterEach it tr2 with ⟨o2, tr3⟩
    have ho2 : o2 = none := by
      have hh := hA tr2
      rw [haf] at hh
      exact hh
    subst ho2
    obtain ⟨res, terr, tr', heq, hmap, hmono, hcases, hsrc⟩ :=
      ih (acc ++ [{ TestName := c, Error := testErr }]) tr3
    have h1 : (runHook it "beforeEach" tr).2 = tr1 := congrArg Prod.snd hbe
    have h2 : (invokeTestFunction it tr1 c).2 = tr2 := congrArg Prod.snd hiv
    have h3 : (runHook it "afterEach" tr2).2 = tr3 := congrArg Prod.snd haf
    have ht2 : tr2 = tr1 ++ [c] := by
      rw [← h2, invokeTestFunction_trace]
    refine ⟨res, terr, tr', ?_, ?_, ?_, ?_, ?_⟩
    · simp only [runCases, hbe, hiv, haf]
      exact heq
    · rw [hmap]
      simp
    · intro x hx
      apply hmono
      have m2 : x ∈ tr1 := h1 ▸ runHook_mem it "beforeEach" tr x hx
      have m3 : x ∈ tr2 := by
        rw [ht2]
        exact List.mem_append_left _ m2
      exact h3 ▸ runHook_mem it "afterEach" tr2 x m3
    · intro c' hc'
      rcases List.mem_cons.mp hc' with he | hmem
      · apply hmono
        have m : c' ∈ tr2 := by
          rw [ht2, he]
          exact List.mem_append_right _ (List.mem_singleton_self c)
        exact h3 ▸ runHook_mem it "afterEach" tr2 c' m
      · exact hcases c' hmem
    · intro r hr
      rcases hsrc r hr with hin | hexists
      · rcases List.mem_append.mp hin with hacc | hnew
        · exact Or.inl hacc
        · have hre : r = { TestName := c, Error := testErr } := by
            simpa using hnew
          subst hre
          right
          refine ⟨tr1, ?_⟩
          rw [hiv, ht2]
      · exact Or.inr hexists

/-! Helper lemmas for the import-rewriting loop. -/

theorem sliceList_append (l : List Char) (a b c : Nat) (hab : a ≤ b) (hbc : b ≤ c)
    (hc : c ≤ l.length) :
    sliceList l a b ++ sliceList l b c = sliceList l a c := by
  unfold sliceList
  have htb : (l.take c).take b = l.take b := by
    rw [List.take_take, min_eq_left hbc]
  have hsplit : l.take c = l.take b ++ (l.take c).drop b := by
    conv_lhs => rw [← List.take_append_drop b (l.take c)]
    rw [htb]
  conv_rhs => rw [hsplit]
  rw [List.drop_append_eq_append_drop]
  have hlb : (l.take b).length = b := by
    rw [List.length_take]
    exact min_eq_left (le_trans hbc hc)
  rw [hlb, Nat.sub_eq_zero_of_le hab, List.drop_zero]

theorem importsWF_le (code : List Char) :
    ∀ (imports : List ImportDecl) (p : Nat), importsWF code imports p = true → p ≤ code.length := by
  intro imports
  induction imports with
  | nil =>
    intro p h
    simpa [importsWF] using h
  | cons d rest ih =>
    intro p h
    unfold importsWF at h
    simp only [Bool.and_eq_true, decide_eq_true_eq] at h
    obtain ⟨⟨h1, h2⟩, h3⟩ := h
    have h4 := ih (d.endOffset + 1) h3
    omega

theorem rewriteLoop_eq_spec (addrs : String → Option String) (code : List Char) :
    ∀ (imports : List ImportDecl) (p : Nat), importsWF code imports p = true →
      rewriteLoop addrs code imports p = specRewrite addrs code imports p := by
  intro imports
  induction imports with
  | nil =>
    intro p _
    rfl
  | cons d rest ih =>
    intro p h
    unfold importsWF at h
    simp only [Bool.and_eq_true, decide_eq_true_eq] at h
    obtain ⟨⟨h1, h2⟩, h3⟩ := h
    have hlen : d.endOffset + 1 ≤ code.length := importsWF_le code rest (d.endOffset + 1) h3
    simp only [rewriteLoop, specRewrite]
    rw [ih (d.endOffset + 1) h3]
    have hmerge := sliceList_append code p d.locationPos (d.endOffset + 1) h1 h2 hlen
    rcases hsl : d.stringLocation with _ | loc <;> simp only [hsl]
    all_goals try (rcases haddr : addrs loc with _ | address <;> simp only [haddr])
    all_goals simp only [← hmerge, List.append_assoc]

/-! Helper lemmas about the backend transaction builders. -/

theorem AddTransaction_spec (e : EmulatorBackend) (parse : ParseOracle) (base : Nat)
    (signErr : Option Err) (ledgerAdd : Tx → Option Err)
    (code : String) (authorizers : List String) (args : List ArgEnc) (out : AddTxOut)
    (h : AddTransaction e parse base signErr ledgerAdd code authorizers args = .ok out) :
    (∀ tx, out.builtTx = some tx →
      tx.proposalSequenceNumber = (base + e.blockOffset) % U64) ∧
    (out.error = none → out.backend.blockOffset = (e.blockOffset + 1) % U64) ∧
    (out.error ≠ none → out.backend.blockOffset = e.blockOffset) := by
  unfold AddTransaction at h
  rcases hri : replaceImports e.configuration parse code with code' | p <;> rw [hri] at h
  case panicked => exact absurd h (by simp)
  simp only [] at h
  rcases hen : encodeArgs args with er | encoded <;> rw [hen] at h <;> simp only [Res.ok.injEq] at h
  · subst h
    refine ⟨?_, by simp, fun _ => rfl⟩
    intro tx htx
    simp only [Option.some.injEq] at htx
    subst htx
    rfl
  · rcases signErr with _ | er
    · simp only [] at h
      rcases hl : ledgerAdd _ with _ | er <;> rw [hl] at h <;> simp only [Res.ok.injEq] at h <;> subst h
      · refine ⟨?_, fun _ => rfl, by simp⟩
        intro tx htx
        simp only [Option.some.injEq] at htx
        subst htx
        rfl
      · refine ⟨?_, by simp, fun _ => rfl⟩
        intro tx htx
        simp only [Option.some.injEq] at htx
        subst htx
        rfl
    · simp only [Res.ok.injEq] at h
      subst h
      refine ⟨?_, by simp, fun _ => rfl⟩
      intro tx htx
      simp only [Option.some.injEq] at htx
      subst htx
      rfl

theorem DeployContract_spec (e : EmulatorBackend) (parse : ParseOracle) (base : Nat)
    (signErr : Option Err) (ledgerAdd : Tx → Option Err) (execRes : ExecOut)
    (commitErr : Option Err) (name code acct : String) (args : List ArgEnc) (out : DeployOut)
    (h : DeployContract e parse base signErr ledgerAdd execRes commitErr name code acct args = .ok out) :
    ∀ tx, out.builtTx = some tx →
      tx.proposalSequenceNumber = (base + e.blockOffset) % U64 := by
  unfold DeployContract at h
  rcases hri : replaceImports e.configuration parse code with code' | p <;> rw [hri] at h
  case panicked => exact absurd h (by simp)
  simp only [] at h
  rcases hen : encodeArgs args with er | encoded <;> rw [hen] at h <;> simp only [] at h
  · simp only [Res.ok.injEq] at h
    subst h
    intro tx htx
    exact absurd htx (by simp)
  · rcases signErr with _ | er
    · simp only [] at h
      rcases hl : ledgerAdd _ with _ | er <;> rw [hl] at h <;> simp only [] at h
      · rcases hex : ExecuteNextTransaction execRes with _ | ⟨rerr⟩ <;> rw [hex] at h
        · exact absurd h (by simp)
        · rcases rerr with _ | er <;>
            simp only [CommitBlock, Res.ok.injEq] at h <;> subst h <;>
            intro tx htx <;> simp only [Option.some.injEq] at htx <;> subst htx <;> rfl
      · simp only [Res.ok.injEq] at h
        subst h
        intro tx htx
        simp only [Option.some.injEq] at htx
        subst htx
        rfl
    · simp only [Res.ok.injEq] at h
      subst h
      intro tx htx
      simp only [Option.some.injEq] at htx
      subst htx
      rfl

/-! Additional small helpers used by the claim theorems. -/

theorem runHook_count_ite (it : Interp) (m : String) (tr : List String) :
    List.count m (runHook it m tr).2 =
      List.count m tr + (if it.globals.contains m then 1 else 0) := by
  by_cases hc : it.globals.contains m = true
  · rw [runHook_count_self it m tr hc, if_pos hc]
  · have hc' : it.globals.contains m = false := by simpa using hc
    rw [runHook_absent it m tr hc', if_neg hc]
    simp

/-! Claim theorems. -/

/-- Interpreter oracle refuting claim C1 as stated: `beforeEach` is
present and fails, `tearDown` is present, `setup` is absent (so the
preamble succeeds), yet `tearDown` is never invoked. -/
def c1CexIt : Interp :=
  { decls := ["testA"]
    globals := ["beforeEach", "tearDown"]
    behave := fun _ n => if n = "beforeEach" then .err "boom" else .ok }

/-- C1 counterexample: on a script whose parse/check and `setup`
succeed, with `tearDown` present, a failing `beforeEach` makes
`RunTests` return WITHOUT invoking `tearDown` (it is invoked zero
times, not exactly once), refuting the claim that `tearDown` runs
exactly once regardless of `beforeEach`/`afterEach` failures. -/
theorem c1_counterexample :
    c1CexIt.globals.contains "tearDown" = true ∧
    (runTestSetup c1CexIt []).1 = none ∧
    List.count "tearDown" (RunTests 0 c1CexIt).2.2 = 0 := by
  decide

/-- C1 (amended): provided parse/check succeeded, `setup` succeeds, and
additionally no `beforeEach`/`afterEach` invocation fails, a call to
`RunTests` invokes the `tearDown` hook (present in the globals) exactly
once, regardless of how many test cases fail or fault. -/
theorem c1_theorem (it : Interp) (seed : Int)
    (hsetup : (runTestSetup it []).1 = none)
    (hB : ∀ tr, (runBeforeEach it tr).1 = none)
    (hA : ∀ tr, (runAfterEach it tr).1 = none)
    (hTD : it.globals.contains "tearDown" = true) :
    List.count "tearDown" (RunTests seed it).2.2 = 1 := by
  rcases hsu : runTestSetup it [] with ⟨o0, tr0⟩
  have ho0 : o0 = none := by
    rw [hsu] at hsetup
    exact hsetup
  subst ho0
  have hnotin : "tearDown" ∉ executionOrder seed (testCasesOf it) := by
    intro hmem
    have hmem' : "tearDown" ∈ testCasesOf it :=
      ((executionOrder_perm seed (testCasesOf it)).mem_iff).mp hmem
    have hpref : hasPrefixStr "test" "tearDown" = true := (List.mem_filter.mp hmem').2
    exact absurd hpref (by decide)
  simp only [RunTests, hsu]
  rw [runCases_count_tearDown it hB hA (executionOrder seed (testCasesOf it)) [] tr0 hnotin]
  have h0 : (runHook it "setup" []).2 = tr0 := congrArg Prod.snd hsu
  have e0 : List.count "tearDown" tr0 = List.count "tearDown" ([] : List String) :=
    h0 ▸ runHook_count it "setup" [] "tearDown" (by decide)
  rw [e0, if_pos hTD]
  simp

/-- Well-behaved interpreter oracle used as the C1 witness input. -/
def c1WitIt : Interp :=
  { decls := ["testOne"], globals := ["tearDown"], behave := fun _ _ => .ok }

/-- C1 witness: the amended theorem applied at a concrete script. -/
theorem c1_theorem_witness :
    c1WitIt.globals.contains "tearDown" = true ∧
    List.count "tearDown" (RunTests 0 c1WitIt).2.2 = 1 :=
  ⟨by decide, c1_theorem c1WitIt 0 rfl (fun _ => rfl) (fun _ => rfl) (by decide)⟩

/-- Interpreter oracle refuting claim C2 as stated: the test case
raises an internal fault; `afterEach` and `tearDown` are present. -/
def c2CexIt : Interp :=
  { decls := ["testX"]
    globals := ["afterEach", "tearDown"]
    behave := fun _ n => if n = "testX" then .fault "bad" else .ok }

/-- C2 counterexample: in `RunTest` the case is invoked with a raw
`inter.Invoke`, so a fault in the case invocation is recovered only at
the `RunTest` boundary: the call returns a nil `Result` and the fault
as its error, and the sibling `afterEach`/`tearDown` hooks are never
invoked - refuting the claimed per-invocation containment for the case
invocation. -/
theorem c2_counterexample :
    c2CexIt.globals.contains "afterEach" = true ∧
    RunTest c2CexIt "testX" = (none, some "bad", ["testX"]) ∧
    List.count "afterEach" (RunTest c2CexIt "testX").2.2 = 0 := by
  decide

/-- C2 (amended): in `RunTest`, `afterEach` (when present) runs after
the named case whenever the case invocation returns normally or with an
ordinary error; hook invocations are fault-contained per-invocation by
`invokeTestFunction`; but the case invocation itself is NOT
individually contained - a fault there is converted to an error only at
the `RunTest` boundary and aborts the sibling `afterEach`/`tearDown`
calls. -/
theorem c2_theorem (it : Interp) (n : String)
    (hsetup : (runTestSetup it []).1 = none)
    (hB : ∀ tr, (runBeforeEach it tr).1 = none)
    (hn : n ≠ "afterEach") :
    (∀ tr m e, it.behave tr m = .fault e →
      invokeTestFunction it tr m = (some e, tr ++ [m])) ∧
    ((∀ tr e, it.behave tr n ≠ .fault e) →
      List.count "afterEach" (RunTest it n).2.2 =
        (if it.globals.contains "afterEach" then 1 else 0)) ∧
    ((∀ tr, ∃ e, it.behave tr n = .fault e) →
      (RunTest it n).1 = none ∧ (∃ e, (RunTest it n).2.1 = some e) ∧
      List.count "afterEach" (RunTest it n).2.2 = 0) := by
  rcases hsu : runTestSetup it [] with ⟨o0, tr0⟩
  have ho0 : o0 = none := by
    rw [hsu] at hsetup
    exact hsetup
  subst ho0
  rcases hbe : runBeforeEach it tr0 with ⟨o1, tr1⟩
  have ho1 : o1 = none := by
    have hh := hB tr0
    rw [hbe] at hh
    exact hh
  subst ho1
  have h0 : (runHook it "setup" []).2 = tr0 := congrArg Prod.snd hsu
  have e0 : List.count "afterEach" tr0 = 0 :=
    h0 ▸ runHook_count it "setup" [] "afterEach" (by decide)
  have h1 : (runHook it "beforeEach" tr0).2 = tr1 := congrArg Prod.snd hbe
  have e1 : List.count "afterEach" tr1 = 0 := by
    have hh := runHook_count it "beforeEach" tr0 "afterEach" (by decide)
    rw [h1] at hh
    rw [hh]
    exact e0
  refine ⟨fun tr m e h => invokeTestFunction_fault it tr m e h, ?_, ?_⟩
  · intro hnf
    have e2 : List.count "afterEach" (tr1 ++ [n]) = 0 := by
      rw [count_snoc, if_neg hn, e1]
    rcases hbv : it.behave tr1 n with _ | e | e
    · simp only [RunTest, hsu, hbe, Invoke, hbv]
      rcases haf : runAfterEach it (tr1 ++ [n]) with ⟨o2, tr3⟩
      have h3 : (runHook it "afterEach" (tr1 ++ [n])).2 = tr3 := congrArg Prod.snd haf
      have e3 : List.count "afterEach" tr3 =
          (if it.globals.contains "afterEach" then 1 else 0) := by
        rw [← h3, runHook_count_ite, e2]
        omega
      rcases o2 with _ | e2'
      · simp only [haf]
        rcases htd : runTestTearDown it tr3 with ⟨terr, tr4⟩
        simp only [htd]
        have h4 : (runHook it "tearDown" tr3).2 = tr4 := congrArg Prod.snd htd
        rw [← h4, runHook_count it "tearDown" tr3 "afterEach" (by decide), e3]
      · simp only [haf]
        exact e3
    · simp only [RunTest, hsu, hbe, Invoke, hbv]
      rcases haf : runAfterEach it (tr1 ++ [n]) with ⟨o2, tr3⟩
      have h3 : (runHook it "afterEach" (tr1 ++ [n])).2 = tr3 := congrArg Prod.snd haf
      have e3 : List.count "afterEach" tr3 =
          (if it.globals.contains "afterEach" then 1 else 0) := by
        rw [← h3, runHook_count_ite, e2]
        omega
      rcases o2 with _ | e2'
      · simp only [haf]
        rcases htd : runTestTearDown it tr3 with ⟨terr, tr4⟩
        simp only [htd]
        have h4 : (runHook it "tearDown" tr3).2 = tr4 := congrArg Prod.snd htd
        rw [← h4, runHook_count it "tearDown" tr3 "afterEach" (by decide), e3]
      · simp only [haf]
        exact e3
    · exact absurd hbv (hnf tr1 e)
  · intro hf
    obtain ⟨e, hbv⟩ := hf tr1
    have hRT : RunTest it n = (none, some e, tr1 ++ [n]) := by
      simp only [RunTest, hsu, hbe, Invoke, hbv]
    rw [hRT]
    exact ⟨rfl, ⟨e, rfl⟩, by rw [count_snoc, if_neg hn, e1]⟩

/-- Faulting interpreter oracle used as the C2 witness input. -/
def c2WitIt : Interp :=
  { decls := ["testY"]
    globals := ["afterEach"]
    behave := fun _ n => if n = "testY" then .fault "dead" else .ok }

/-- C2 witness: the amended theorem applied at a concrete script whose
case always faults. -/
theorem c2_theorem_witness :
    (RunTest c2WitIt "testY").1 = none ∧
    (∃ e, (RunTest c2WitIt "testY").2.1 = some e) ∧
    List.count "afterEach" (RunTest c2WitIt "testY").2.2 = 0 :=
  (c2_theorem c2WitIt "testY" rfl (fun _ => rfl) (by decide)).2.2
    (fun tr => ⟨"dead", rfl⟩)

/-- C3 (confirmed): in `RunTests` every case is invoked through
`invokeTestFunction`, which converts an internal fault into an ordinary
error value for that invocation; when the hooks succeed, every
discovered case (in execution order) is invoked and yields a `Result`,
and a case whose invocation always faults yields a `Result` with a
non-nil error; no fault escapes, the calls return plain values. -/
theorem c3_theorem (it : Interp) (seed : Int)
    (hsetup : (runTestSetup it []).1 = none)
    (hB : ∀ tr, (runBeforeEach it tr).1 = none)
    (hA : ∀ tr, (runAfterEach it tr).1 = none) :
    (∀ tr m e, it.behave tr m = .fault e →
      invokeTestFunction it tr m = (some e, tr ++ [m])) ∧
    (∃ res, (RunTests seed it).1 = some res ∧
      res.map (fun r => r.TestName) = executionOrder seed (testCasesOf it) ∧
      (∀ c ∈ executionOrder seed (testCasesOf it), c ∈ (RunTests seed it).2.2) ∧
      (∀ r ∈ res, (∀ tr0, ∃ e, it.behave tr0 r.TestName = .fault e) →
        r.Error ≠ none)) := by
  rcases hsu : runTestSetup it [] with ⟨o0, tr0⟩
  have ho0 : o0 = none := by
    rw [hsu] at hsetup
    exact hsetup
  subst ho0
  obtain ⟨res, terr, tr', heq, hmap, hmono, hcases, hsrc⟩ :=
    runCases_ok it hB hA (executionOrder seed (testCasesOf it)) [] tr0
  have hRT : RunTests seed it = (some res, terr, tr') := by
    simp only [RunTests, hsu]
    exact heq
  refine ⟨fun tr m e h => invokeTestFunction_fault it tr m e h, res, by rw [hRT], ?_, ?_, ?_⟩
  · rw [hmap]
    simp
  · intro c hc
    rw [hRT]
    exact hcases c hc
  · intro r hr hf
    rcases hsrc r hr with hin | ⟨tr1, hinv⟩
    · exact absurd hin (by simp)
    · obtain ⟨e, hbv⟩ := hf tr1
      rw [invokeTestFunction_fault it tr1 r.TestName e hbv] at hinv
      have hre : r.Error = some e := (Prod.mk.injEq _ _ _ _ ▸ hinv).1.symm
      rw [hre]
      simp

/-- Interpreter oracle used as the C3 witness input: the first of two
cases always faults. -/
def c3WitIt : Interp :=
  { decls := ["testA", "testB"]
    globals := []
    behave := fun _ n => if n = "testA" then .fault "dead" else .ok }

/-- C3 witness: the theorem applied at a concrete two-case script
whose first case faults. -/
theorem c3_theorem_witness :
    (∀ tr m e, c3WitIt.behave tr m = .fault e →
      invokeTestFunction c3WitIt tr m = (some e, tr ++ [m])) ∧
    (∃ res, (RunTests 0 c3WitIt).1 = some res ∧
      res.map (fun r => r.TestName) = executionOrder 0 (testCasesOf c3WitIt) ∧
      (∀ c ∈ executionOrder 0 (testCasesOf c3WitIt), c ∈ (RunTests 0 c3WitIt).2.2) ∧
      (∀ r ∈ res, (∀ tr0, ∃ e, c3WitIt.behave tr0 r.TestName = .fault e) →
        r.Error ≠ none)) :=
  c3_theorem c3WitIt 0 rfl (fun _ => rfl) (fun _ => rfl)

/-- C6 (confirmed): the execution order of `RunTests` is a function of
the configured seed and the discovered case list alone - equal seeds
give identical orders; a seed less than or equal to zero gives
declaration order; and a positive seed produces a permutation of the
case list. -/
theorem c6_theorem (s1 s2 : Int) (cases : List String) :
    (s1 = s2 → executionOrder s1 cases = executionOrder s2 cases) ∧
    (s1 ≤ 0 → executionOrder s1 cases = cases) ∧
    (executionOrder s1 cases).Perm cases := by
  refine ⟨fun h => by rw [h], fun h => ?_, executionOrder_perm s1 cases⟩
  unfold executionOrder
  rw [if_neg (by omega)]

/-- C6 witness: the theorem applied at concrete seeds and a concrete
case list. -/
theorem c6_theorem_witness :
    executionOrder 5 ["testB", "testA"] = executionOrder 5 ["testB", "testA"] ∧
    executionOrder (-3) ["testB", "testA"] = ["testB", "testA"] ∧
    (executionOrder 5 ["testB", "testA"]).Perm ["testB", "testA"] :=
  ⟨(c6_theorem 5 5 ["testB", "testA"]).1 rfl,
   (c6_theorem (-3) (-3) ["testB", "testA"]).2.1 (by norm_num),
   (c6_theorem 5 5 ["testB", "testA"]).2.2⟩

/-- Interpreter oracle refuting claim C8 as stated: the first case
completes and its `Result` is recorded, then `beforeEach` fails before
the second case. -/
def c8CexIt : Interp :=
  { decls := ["testA", "testB"]
    globals := ["beforeEach"]
    behave := fun tr n =>
      if n = "beforeEach" && tr.contains "testA" then .err "hookfail" else .ok }

/-- C8 counterexample: after the first case completed with a recorded
`Result`, a failing `beforeEach` makes `RunTests` return a nil Results
value together with the hook error - NOT the partial Results sequence
accumulated so far. -/
theorem c8_counterexample :
    (RunTests 0 c8CexIt).2.1 = some "hookfail" ∧
    "testA" ∈ (RunTests 0 c8CexIt).2.2 ∧
    (RunTests 0 c8CexIt).1 = none ∧
    (RunTests 0 c8CexIt).1 ≠ some [Result.mk "testA" none] := by
  decide

/-- C8 (amended): when a `beforeEach` or `afterEach` invocation fails
during the `RunTests` loop, the call returns a NIL Results value
(discarding the Results accumulated so far) together with the
hook-level error. -/
theorem c8_theorem (it : Interp) (seed : Int) (c : String) (rest : List String)
    (acc : List Result) (tr : List String) (er : Err) :
    ((runBeforeEach it tr).1 = some er →
      runCases it (c :: rest) acc tr = (none, some er, (runBeforeEach it tr).2)) ∧
    ((runBeforeEach it tr).1 = none →
      (runAfterEach it (invokeTestFunction it (runBeforeEach it tr).2 c).2).1 = some er →
      runCases it (c :: rest) acc tr =
        (none, some er, (runAfterEach it (invokeTestFunction it (runBeforeEach it tr).2 c).2).2)) ∧
    ((runTestSetup it []).1 = none →
      (runBeforeEach it (runTestSetup it []).2).1 = some er →
      executionOrder seed (testCasesOf it) = c :: rest →
      RunTests seed it = (none, some er, (runBeforeEach it (runTestSetup it []).2).2)) := by
  refine ⟨?_, ?_, ?_⟩
  · intro h
    rcases hbe : runBeforeEach it tr with ⟨o1, tr1⟩
    rw [hbe] at h
    simp only at h
    subst h
    simp only [runCases, hbe]
  · intro h hA2
    rcases hbe : runBeforeEach it tr with ⟨o1, tr1⟩
    rw [hbe] at h
    simp only at h
    subst h
    rcases hiv : invokeTestFunction it tr1 c with ⟨testErr, tr2⟩
    rw [hbe] at hA2
    simp only [hiv] at hA2
    rcases haf : runAfterEach it tr2 with ⟨o2, tr3⟩
    rw [haf] at hA2
    simp only at hA2
    subst hA2
    simp only [runCases, hbe, hiv, haf]
  · intro hsu1 hbe1 hord
    rcases hsu : runTestSetup it [] with ⟨o0, tr0⟩
    rw [hsu] at hsu1 hbe1
    dsimp only at hsu1 hbe1 ⊢
    subst hsu1
    rcases hbe : runBeforeEach it tr0 with ⟨o1, tr1⟩
    rw [hbe] at hbe1
    dsimp only at hbe1 ⊢
    subst hbe1
    simp only [RunTests, hsu, hord, runCases, hbe]

/-- Interpreter oracle used as the C8 witness input. -/
def c8WitIt : Interp :=
  { decls := ["testA"]
    globals := ["beforeEach"]
    behave := fun _ n => if n = "beforeEach" then .err "hookfail" else .ok }

/-- C8 witness: the amended theorem applied at a concrete script whose
`beforeEach` fails immediately. -/
theorem c8_theorem_witness :
    RunTests 0 c8WitIt = (none, some "hookfail", ["beforeEach"]) :=
  (c8_theorem c8WitIt 0 "testA" [] [] [] "hookfail").2.2 rfl rfl rfl

/-- C4 (confirmed): every transaction built by `AddTransaction` (and by
`DeployContract`) carries sequence number equal to the service
account's base sequence number plus the current pending offset; the
offset is incremented exactly when the submission to the pending block
succeeded; and `CommitBlock` resets the offset to zero whatever the
ledger commit's outcome, since the reset precedes the commit call. -/
theorem c4_theorem (e : EmulatorBackend) (parse : ParseOracle) (base : Nat)
    (signErr : Option Err) (ledgerAdd : Tx → Option Err)
    (code : String) (authorizers : List String) (args : List ArgEnc) :
    (∀ out, AddTransaction e parse base signErr ledgerAdd code authorizers args = .ok out →
      (∀ tx, out.builtTx = some tx →
        tx.proposalSequenceNumber = (base + e.blockOffset) % U64) ∧
      (out.error = none → out.backend.blockOffset = (e.blockOffset + 1) % U64) ∧
      (out.error ≠ none → out.backend.blockOffset = e.blockOffset)) ∧
    (∀ commitErr, ((CommitBlock e commitErr).2).blockOffset = 0) ∧
    (∀ name acct execRes commitErr dout,
      DeployContract e parse base signErr ledgerAdd execRes commitErr name code acct args = .ok dout →
      ∀ tx, dout.builtTx = some tx →
        tx.proposalSequenceNumber = (base + e.blockOffset) % U64) :=
  ⟨fun out h => AddTransaction_spec e parse base signErr ledgerAdd code authorizers args out h,
   fun _ => rfl,
   fun name acct execRes commitErr dout h =>
     DeployContract_spec e parse base signErr ledgerAdd execRes commitErr name code acct args dout h⟩

/-- Backend state used as the C4 witness input. -/
def c4WitE : EmulatorBackend := { blockOffset := 3, configuration := none }

/-- Observable output of the C4 witness run of `AddTransaction`. -/
def c4WitOut : AddTxOut :=
  { error := none
    backend := { blockOffset := 4, configuration := none }
    builtTx := some (Tx.mk "transaction \x7b\x7d" 12 [] []) }

/-- C4 witness: the theorem applied at a concrete backend state with
base sequence number 9 and pending offset 3. -/
theorem c4_theorem_witness :
    (Tx.mk "transaction \x7b\x7d" 12 [] []).proposalSequenceNumber = (9 + 3) % U64 ∧
    c4WitOut.backend.blockOffset = (3 + 1) % U64 ∧
    ((CommitBlock c4WitE (some "commit failed")).2).blockOffset = 0 :=
  ⟨((c4_theorem c4WitE (fun _ => Except.ok []) 9 none (fun _ => none)
      "transaction \x7b\x7d" [] []).1 c4WitOut rfl).1
      (Tx.mk "transaction \x7b\x7d" 12 [] []) rfl,
   ((c4_theorem c4WitE (fun _ => Except.ok []) 9 none (fun _ => none)
      "transaction \x7b\x7d" [] []).1 c4WitOut rfl).2.1 rfl,
   (c4_theorem c4WitE (fun _ => Except.ok []) 9 none (fun _ => none)
      "transaction \x7b\x7d" [] []).2.1 (some "commit failed")⟩

/-- The address table of the spec's C5 example:
`"./foo.cdc"` maps to the address `AB`. -/
def c5ExampleCfg : Configuration :=
  { Addresses := fun s => if s = "./foo.cdc" then some "AB" else none }

/-- Parser oracle for the spec's C5 example source
`import Foo from "./foo.cdc"`: one import declaration whose location
token (the quoted string) spans bytes 16-26. -/
def c5ExampleParse : ParseOracle :=
  fun _ => .ok [ImportDecl.mk 26 16 (some "./foo.cdc")]

/-- C5 (confirmed): with no configuration the source is returned
unchanged; for a well-formed parsed import list the rewriting loop
equals the spec's description (bytes outside the import locations are
copied verbatim, a string-path location present in the table is
replaced by `0x` plus its address, all other imports pass through
unmodified); and the spec's concrete example rewrites as stated. -/
theorem c5_theorem (addrs : String → Option String) (codeL : List Char)
    (imports : List ImportDecl) (parse : ParseOracle) (code : String) :
    (replaceImports none parse code = .ok code) ∧
    (importsWF codeL imports 0 = true →
      replaceImportsCore addrs codeL imports = specRewrite addrs codeL imports 0) ∧
    (replaceImports (some c5ExampleCfg) c5ExampleParse "import Foo from \"./foo.cdc\""
      = .ok "import Foo from 0xAB") := by
  refine ⟨rfl, fun h => rewriteLoop_eq_spec addrs codeL imports 0 h, ?_⟩
  decide

/-- C5 witness: the rewriting-loop/spec equivalence applied to the
example import list, whose well-formedness is discharged by
computation. -/
theorem c5_theorem_witness :
    importsWF ("import Foo from \"./foo.cdc\"".toList)
        [ImportDecl.mk 26 16 (some "./foo.cdc")] 0 = true ∧
    replaceImportsCore c5ExampleCfg.Addresses ("import Foo from \"./foo.cdc\"".toList)
        [ImportDecl.mk 26 16 (some "./foo.cdc")]
      = specRewrite c5ExampleCfg.Addresses ("import Foo from \"./foo.cdc\"".toList)
        [ImportDecl.mk 26 16 (some "./foo.cdc")] 0 :=
  ⟨by decide,
   (c5_theorem c5ExampleCfg.Addresses ("import Foo from \"./foo.cdc\"".toList)
      [ImportDecl.mk 26 16 (some "./foo.cdc")] (fun _ => Except.ok []) "x").2.1
      (by decide)⟩

/-- C7 (confirmed): `ExecuteNextTransaction` returns `nil` exactly when
the ledger reports the pending-transactions-exhausted condition; any
other ledger error, or an error inside the execution result, yields a
non-nil `TransactionResult` carrying that error; success yields a
non-nil result with a nil error. -/
theorem c7_theorem (r : ExecOut) :
    (ExecuteNextTransaction r = none ↔ r = .errExhausted) ∧
    (∀ e, r = .errOther e →
      ExecuteNextTransaction r = some { Error := some e }) ∧
    (∀ e, r = .execResult (some e) →
      ExecuteNextTransaction r = some { Error := some e }) ∧
    (r = .execResult none → ExecuteNextTransaction r = some { Error := none }) := by
  rcases r with _ | e | er
  · simp [ExecuteNextTransaction]
  · simp [ExecuteNextTransaction]
  · rcases er with _ | e <;> simp [ExecuteNextTransaction]

/-- C7 witness: the theorem applied at concrete ledger responses. -/
theorem c7_theorem_witness :
    ExecuteNextTransaction .errExhausted = none ∧
    ExecuteNextTransaction (.errOther "lost") = some { Error := some "lost" } ∧
    ExecuteNextTransaction (.execResult none) = some { Error := none } :=
  ⟨(c7_theorem .errExhausted).1.mpr rfl,
   (c7_theorem (.errOther "lost")).2.1 "lost" rfl,
   (c7_theorem (.execResult none)).2.2.2 rfl⟩

/-- Backend state refuting claim C9 as stated. -/
def c9CexBackend : EmulatorBackend := { blockOffset := 7, configuration := none }

/-- The C9 counterexample run: `CommitBlock` immediately followed by a
successful `AddTransaction`, with base sequence number 5. -/
def c9CexRun : Res AddTxOut :=
  AddTransaction (CommitBlock c9CexBackend none).2 (fun _ => .ok []) 5 none (fun _ => none)
    "transaction \x7b\x7d" [] []

/-- C9 counterexample: after `CommitBlock` resets the offset to zero,
the very next `AddTransaction` builds its transaction with sequence
number base + 0 = 5, NOT base + 1 = 6; the offset reaches one only
after the submission. -/
theorem c9_counterexample :
    c9CexRun = .ok { error := none
                     backend := { blockOffset := 1, configuration := none }
                     builtTx := some (Tx.mk "transaction \x7b\x7d" 5 [] []) } ∧
    (Tx.mk "transaction \x7b\x7d" 5 [] []).proposalSequenceNumber ≠ 5 + 1 := by
  refine ⟨rfl, by decide⟩

/-- C9 (amended): a successful `CommitBlock` followed immediately by
`AddTransaction` produces a transaction whose sequence number equals
the service account's base sequence number plus ZERO (the freshly reset
offset), and leaves the pending offset equal to one when the submission
succeeded. -/
theorem c9_theorem (e : EmulatorBackend) (parse : ParseOracle) (base : Nat)
    (signErr : Option Err) (ledgerAdd : Tx → Option Err) (code : String)
    (authorizers : List String) (args : List ArgEnc) (commitErr : Option Err) (out : AddTxOut)
    (h : AddTransaction (CommitBlock e commitErr).2 parse base signErr ledgerAdd
      code authorizers args = .ok out) :
    (∀ tx, out.builtTx = some tx → tx.proposalSequenceNumber = base % U64) ∧
    (out.error = none → out.backend.blockOffset = 1) := by
  obtain ⟨hseq, hinc, _⟩ :=
    AddTransaction_spec (CommitBlock e commitErr).2 parse base signErr ledgerAdd
      code authorizers args out h
  constructor
  · intro tx htx
    have hq := hseq tx htx
    simpa using hq
  · intro herr
    have hi := hinc herr
    rw [hi]
    have h1 : (1 : Nat) < U64 := by norm_num [U64]
    show (0 + 1) % U64 = 1
    exact Nat.mod_eq_of_lt h1

/-- C9 witness: the amended theorem applied at the concrete
commit-then-add run used by the counterexample. -/
theorem c9_theorem_witness :
    (Tx.mk "transaction \x7b\x7d" 5 [] []).proposalSequenceNumber = 5 % U64 ∧
    ({ blockOffset := 1, configuration := none } : EmulatorBackend).blockOffset = 1 :=
  ⟨(c9_theorem c9CexBackend (fun _ => Except.ok []) 5 none (fun _ => none)
      "transaction \x7b\x7d" [] [] none
      { error := none
        backend := { blockOffset := 1, configuration := none }
        builtTx := some (Tx.mk "transaction \x7b\x7d" 5 [] []) } rfl).1
      (Tx.mk "transaction \x7b\x7d" 5 [] []) rfl,
   (c9_theorem c9CexBackend (fun _ => Except.ok []) 5 none (fun _ => none)
      "transaction \x7b\x7d" [] [] none
      { error := none
        backend := { blockOffset := 1, configuration := none }
        builtTx := some (Tx.mk "transaction \x7b\x7d" 5 [] []) } rfl).2 rfl⟩

/-- The exhausted-queue response is the only one mapped to `nil` by
`ExecuteNextTransaction`. -/
theorem ExecuteNextTransaction_eq_none (r : ExecOut) :
    ExecuteNextTransaction r = none ↔ r = .errExhausted := by
  rcases r with _ | e | er
  · simp [ExecuteNextTransaction]
  · simp [ExecuteNextTransaction]
  · rcases er with _ | e <;> simp [ExecuteNextTransaction]

/-- C10 (confirmed): with a non-nil configuration, source text that the
parser rejects makes `RunScript` (once its arguments encoded),
`AddTransaction` and `DeployContract` PANIC from the import-rewriting
step instead of returning the failure through the operation's error
channel; with a nil configuration the rewriter returns the source
unchanged without consulting the parser, and the operations complete
with ordinary values. -/
theorem c10_theorem (e : EmulatorBackend) (cfg : Configuration) (parse : ParseOracle)
    (exec : String → ScriptExec) (code : String) (perr : Err) (base : Nat)
    (signErr : Option Err) (ledgerAdd : Tx → Option Err) (authorizers : List String)
    (args : List ArgEnc) (enc : List String) (execRes : ExecOut) (commitErr : Option Err)
    (name acct : String) :
    (e.configuration = some cfg → parse code = .error perr →
      (encodeArgs args = .ok enc →
        RunScript e parse exec code args = .panicked perr) ∧
      AddTransaction e parse base signErr ledgerAdd code authorizers args = .panicked perr ∧
      DeployContract e parse base signErr ledgerAdd execRes commitErr
        name code acct args = .panicked perr) ∧
    (e.configuration = none →
      replaceImports e.configuration parse code = .ok code ∧
      (∃ r, RunScript e parse exec code args = .ok r) ∧
      (∃ r, AddTransaction e parse base signErr ledgerAdd code authorizers args = .ok r) ∧
      (execRes ≠ .errExhausted →
        ∃ r, DeployContract e parse base signErr ledgerAdd execRes commitErr
          name code acct args = .ok r)) := by
  constructor
  · intro hcfg hperr2
    have hri : replaceImports e.configuration parse code = .panicked perr := by
      rw [hcfg]
      unfold replaceImports
      rw [hperr2]
    refine ⟨?_, ?_, ?_⟩
    · intro henc
      unfold RunScript
      rw [henc, hri]
    · unfold AddTransaction
      rw [hri]
    · unfold DeployContract
      rw [hri]
  · intro hcfg
    have hri : replaceImports e.configuration parse code = .ok code := by
      rw [hcfg]
      rfl
    refine ⟨hri, ?_, ?_, ?_⟩
    · unfold RunScript
      rw [hri]
      dsimp only
      repeat' split
      all_goals exact ⟨_, rfl⟩
    · unfold AddTransaction
      rw [hri]
      dsimp only
      repeat' split
      all_goals exact ⟨_, rfl⟩
    · intro hne
      unfold DeployContract
      rw [hri]
      dsimp only
      repeat' split
      all_goals first
        | exact ⟨_, rfl⟩
        | (rename_i heq; exact absurd ((ExecuteNextTransaction_eq_none execRes).mp heq) hne)

/-- Configuration used as the C10 witness input. -/
def c10WitCfg : Configuration := { Addresses := fun _ => none }

/-- C10 witness: the theorem applied at a concrete backend with a
configured address table and a parser that rejects the source, and at
the same backend with no configuration. -/
theorem c10_theorem_witness :
    RunScript { blockOffset := 0, configuration := some c10WitCfg }
        (fun _ => Except.error "parse boom") (fun _ => ScriptExec.okValue "v") "bad(" []
      = .panicked "parse boom" ∧
    AddTransaction { blockOffset := 0, configuration := some c10WitCfg }
        (fun _ => Except.error "parse boom") 0 none (fun _ => none) "bad(" [] []
      = .panicked "parse boom" ∧
    (∃ r, RunScript { blockOffset := 0, configuration := none }
        (fun _ => Except.error "parse boom") (fun _ => ScriptExec.okValue "v") "bad(" []
      = .ok r) :=
  ⟨((c10_theorem { blockOffset := 0, configuration := some c10WitCfg } c10WitCfg
      (fun _ => Except.error "parse boom") (fun _ => ScriptExec.okValue "v") "bad("
      "parse boom" 0 none (fun _ => none) [] [] [] .errExhausted none "n" "a").1
      rfl rfl).1 rfl,
   ((c10_theorem { blockOffset := 0, configuration := some c10WitCfg } c10WitCfg
      (fun _ => Except.error "parse boom") (fun _ => ScriptExec.okValue "v") "bad("
      "parse boom" 0 none (fun _ => none) [] [] [] .errExhausted none "n" "a").1
      rfl rfl).2.1,
   ((c10_theorem { blockOffset := 0, configuration := none } c10WitCfg
      (fun _ => Except.error "parse boom") (fun _ => ScriptExec.okValue "v") "bad("
      "parse boom" 0 none (fun _ => none) [] [] [] .errExhausted none "n" "a").2
      rfl).2.1⟩

end CadenceTools
